import Mathlib

/-!
Verification of the virtual-filesystem helpers (src/utils/fsHelpers.ts) and
the lexical highlighter (src/utils/highlighter.ts) of the repository.

The filesystem is a tree of tagged nodes (`type: 'file' | 'folder'`), where a
folder holds a `Record<string, FileSystemNode>` of children.  The record is
modelled as an association list with the JavaScript object semantics used by
the code: lookup by key, assignment replacing an existing key in place (or
appending a fresh key), and `delete` removing a key.
-/

namespace FS

/-- `FileSystemNode` from src/types.ts: a tagged union of
`FileNode { type: 'file', content }` and
`FolderNode { type: 'folder', children }`. -/
inductive FSNode where
  | file (content : String)
  | folder (children : List (String × FSNode))
deriving Repr

/-- The children record of a folder (`Record<string, FileSystemNode>`). -/
abbrev Children := List (String × FSNode)

/-- The `type` tag of a node, as the string compared by the code
(`existingNode.type !== value.type`). -/
def nodeType : FSNode → String
  | .file _ => "file"
  | .folder _ => "folder"

/-- `children[part]`: record lookup (presence is what the code's truthiness
checks test, since node objects are always truthy). -/
def childGet : Children → String → Option FSNode
  | [], _ => none
  | (k, v) :: rest, key => if k = key then some v else childGet rest key

/-- `newChildren[segment] = value`: record assignment; replaces the value at
an existing key, otherwise appends the new key. -/
def childSet : Children → String → FSNode → Children
  | [], key, v => [(key, v)]
  | (k, w) :: rest, key, v =>
    if k = key then (key, v) :: rest else (k, w) :: childSet rest key v

/-- `delete newChildren[segment]`: record deletion. -/
def childDel : Children → String → Children
  | [], _ => []
  | (k, w) :: rest, key => if k = key then rest else (k, w) :: childDel rest key

/-- `path.split('/')` on the single character `/`. -/
def splitOnSlash : List Char → List Char → List String
  | [], acc => [String.mk acc]
  | c :: cs, acc =>
    if c = '/' then String.mk acc :: splitOnSlash cs [] else splitOnSlash cs (acc ++ [c])

/-- `path.split('/').filter(p => p)`: split on slashes and drop the empty
segments (empty strings are falsy). -/
def splitPath (path : String) : List String :=
  (splitOnSlash path.data []).filter (fun s => s ≠ "")

/-- The walk of `get`: at each segment the current node must be a folder
containing the segment as a key, otherwise the result is `undefined`. -/
def getNode : FSNode → List String → Option FSNode
  | node, [] => some node
  | .folder cs, part :: rest =>
    match childGet cs part with
    | some child => getNode child rest
    | none => none
  | .file _, _ :: _ => none

/-- `get(root, path)` from src/utils/fsHelpers.ts (lines 18-32): traverses the
tree along the split path; returns `undefined` (here `none`) when a segment is
missing or a file is reached before the path ends.  The root folder is passed
as its children record. -/
def get (root : Children) (path : String) : Option FSNode :=
  getNode (.folder root) (splitPath path)

/-- The recursive helper `_set` of `set` (src/utils/fsHelpers.ts lines
72-110), with the remaining path segments in place of the index.  At the final
segment an existing node of a different `type` raises the overwrite-type
conflict; at an intermediate segment an existing file raises the path
conflict, a missing segment materializes an empty folder.  Thrown errors are
modelled as `Except.error`.  (The source's `index === currentParts.length - 1`
test guarantees the empty-segment case below is never reached from `set`.) -/
def setAux (value : FSNode) : Children → List String → Except String Children
  | cs, [] => .ok cs
  | cs, [segment] =>
    match childGet cs segment with
    | some existing =>
      if nodeType existing ≠ nodeType value then
        .error "TypeConflict: cannot overwrite an existing node with a node of a different type"
      else .ok (childSet cs segment value)
    | none => .ok (childSet cs segment value)
  | cs, segment :: rest =>
    match childGet cs segment with
    | some (.file _) =>
      .error "PathConflict: an intermediate path segment refers to a file"
    | some (.folder ccs) =>
      match setAux value ccs rest with
      | .ok ccs2 => .ok (childSet cs segment (.folder ccs2))
      | .error e => .error e
    | none =>
      match setAux value [] rest with
      | .ok ccs2 => .ok (childSet cs segment (.folder ccs2))
      | .error e => .error e

/-- `set(root, path, value)` from src/utils/fsHelpers.ts (lines 54-113): an
empty segment list replaces the root (a file as root raises the invalid-root
error), otherwise `_set` rebuilds the spine.  The root folder is identified
with its children record. -/
def set (root : Children) (path : String) (value : FSNode) : Except String Children :=
  match splitPath path with
  | [] =>
    match value with
    | .folder ccs => .ok ccs
    | .file _ => .error "InvalidRoot: cannot set a FileNode as the root of the file system"
  | parts => setAux value root parts

/-- The recursive helper `_unset` of `unset` (src/utils/fsHelpers.ts lines
161-212), with the remaining segments in place of the index and the recursion
depth in place of `index` for the `index > 0` root test.  `none` in the result
is the `undefined` signal telling the parent to remove this folder.  The
source's reference-identity fast paths (returning `currentFolder` unchanged
when nothing below changed) return the same value as the rebuilding branch and
are omitted from this value-level model. -/
def unsetAux : Children → List String → Nat → Except String (Option Children)
  | cs, [], _ => .ok (some cs)
  | cs, segment :: rest, depth =>
    match childGet cs segment with
    | none => .ok (some cs)
    | some existing =>
      match rest with
      | [] =>
        let cs2 := childDel cs segment
        if cs2.isEmpty && depth != 0 then .ok none else .ok (some cs2)
      | _ :: _ =>
        match existing with
        | .file _ =>
          .error "PathConflict: cannot unset a child within a file"
        | .folder ccs =>
          match unsetAux ccs rest (depth + 1) with
          | .error e => .error e
          | .ok r =>
            let cs2 :=
              match r with
              | none => childDel cs segment
              | some ccs2 =>
                if ccs2.isEmpty then childDel cs segment
                else childSet cs segment (.folder ccs2)
            if cs2.isEmpty && depth != 0 then .ok none else .ok (some cs2)

/-- `unset(root, path)` from src/utils/fsHelpers.ts (lines 143-219): an empty
segment list clears the root; otherwise `_unset` runs from depth 0, and the
`undefined` signal at the top level yields an empty root. -/
def unset (root : Children) (path : String) : Except String Children :=
  match splitPath path with
  | [] => .ok []
  | parts =>
    match unsetAux root parts 0 with
    | .error e => .error e
    | .ok none => .ok []
    | .ok (some cs2) => .ok cs2

/-- Successive application of `unset`, stopping at the first raised error. -/
def unsetSeq (root : Children) : List String → Except String Children
  | [] => .ok root
  | p :: ps =>
    match unset root p with
    | .error e => .error e
    | .ok root2 => unsetSeq root2 ps

/-- The data-model invariant on nodes: every folder appearing in the subtree
has at least one child (an empty folder is only tolerated at the root of the
whole tree). -/
inductive NoEmpty : FSNode → Prop where
  | file (content : String) : NoEmpty (.file content)
  | folder (cs : Children) (hne : cs ≠ []) (hall : ∀ p ∈ cs, NoEmpty p.2) :
      NoEmpty (.folder cs)

/-- The invariant on a whole tree, given by its root children record: no
non-root folder has zero children. -/
def RootNoEmpty (root : Children) : Prop := ∀ p ∈ root, NoEmpty p.2

/-- The hypothesis of the missing-path claim, read off the path segments: some
segment of the path does not exist at its level, and no earlier intermediate
segment resolves to a file. -/
def missingBenign : Children → List String → Bool
  | _, [] => false
  | cs, seg :: rest =>
    match childGet cs seg with
    | none => true
    | some (.file _) => false
    | some (.folder ccs) =>
      match rest with
      | [] => false
      | _ :: _ => missingBenign ccs rest

end FS

/-!
The lexical highlighter (src/utils/highlighter.ts).  Text is modelled as
`List Char`.  A JavaScript regex is abstracted to its `exec` behaviour on a
string: a function returning the matched text (`match[0]`) or `none`.  The
`tokenize` loop, `escapeHtml` and `highlightBasic` are translated from the
source; the sql and plaintext rule tables are modelled concretely, each regex
by an executable function mirroring its `exec` semantics.
-/

namespace HL

/-- A token of the highlighter (`Token` in src/utils/highlighter.ts): a type
tag, the matched text (`value`), and an optional error message. -/
structure Token where
  type : String
  value : List Char
  errorMessage : Option String
deriving Repr, DecidableEq

/-- A lexical rule `{ type, regex, errorMessage? }`.  The regex is abstracted
to its `exec` behaviour on the remaining input: `rmatch s` is `match[0]` of
`regex.exec(s)`, or `none` when `exec` returns `null`.  Because `exec`
searches the whole string, the returned text need not be a prefix of `s` when
the pattern is not anchored. -/
structure Rule where
  type : String
  rmatch : List Char → Option (List Char)
  errorMessage : Option String := none

/-- The inner `for (const rule of rules)` loop of `tokenize`: the first rule
whose `exec` yields a match with `match[0].length > 0` wins; a null or empty
match moves on to the next rule.  The winning match is returned split into
its first character and the rest, witnessing that it is non-empty. -/
def findRule : List Rule → List Char → Option (Rule × Char × List Char)
  | [], _ => none
  | r :: rest, s =>
    match r.rmatch s with
    | some (d :: ds) => some (r, d, ds)
    | some [] => findRule rest s
    | none => findRule rest s

/-- The generic error message of the single-character fallback token. -/
def unknownMessage : String := "Invalid or unexpected token."

/-- The `while (position < text.length)` loop of `tokenize`
(src/utils/highlighter.ts lines 229-245), on the remaining suffix of the
input, with an explicit iteration budget: on a rule match the position
advances by `match[0].length`, otherwise a one-character `unknown` token is
emitted and the position advances by one.  `none` means the budget ran out
before the loop finished. -/
def tokenizeFuel (rules : List Rule) : Nat → List Char → Option (List Token)
  | _, [] => some []
  | 0, _ :: _ => none
  | fuel + 1, c :: cs =>
    match findRule rules (c :: cs) with
    | some (r, d, ds) =>
      (tokenizeFuel rules fuel (List.drop ds.length cs)).map
        (fun toks => ⟨r.type, d :: ds, r.errorMessage⟩ :: toks)
    | none =>
      (tokenizeFuel rules fuel cs).map
        (fun toks => ⟨"unknown", [c], some unknownMessage⟩ :: toks)

/-- `tokenize(text, language)` (src/utils/highlighter.ts lines 222-247) with
the rule table of the language already looked up.  Each loop iteration
advances the position by at least one character, so a budget of `s.length`
always suffices; this is proved below as `tokenize_terminates`. -/
def tokenize (rules : List Rule) (s : List Char) : List Token :=
  (tokenizeFuel rules s.length s).getD []

/-- Concatenation of the `value` fields of a token stream. -/
def concatValues (toks : List Token) : List Char :=
  toks.foldr (fun t acc => t.value ++ acc) []

/-- One global `replace` pass for a one-character pattern: every occurrence
of `c` is replaced by `rep`; replacement text is not rescanned. -/
def replaceChar (c : Char) (rep : List Char) : List Char → List Char
  | [] => []
  | d :: ds =>
    if d = c then rep ++ replaceChar c rep ds else d :: replaceChar c rep ds

/-- `escapeHtml` (src/utils/highlighter.ts lines 254-256): replace every
ampersand, then every less-than, then every greater-than sign. -/
def escapeHtml (s : List Char) : List Char :=
  replaceChar '>' ("&gt;".data)
    (replaceChar '<' ("&lt;".data)
      (replaceChar '&' ("&amp;".data) s))

/-- Association-list lookup modelling JS record access on the class map. -/
def lookupStr : List (String × String) → String → Option String
  | [], _ => none
  | (k, v) :: rest, key => if k = key then some v else lookupStr rest key

/-- `typeToClassMap` (src/utils/highlighter.ts lines 6-39). -/
def typeToClassMap : List (String × String) :=
  [("comment", "sh-comment"), ("string", "sh-string"), ("number", "sh-number"),
   ("keyword", "sh-keyword"), ("type", "sh-type"), ("function", "sh-function"),
   ("bracket", "sh-bracket"), ("op", "sh-op"), ("id", "sh-id"),
   ("tag", "sh-tag"), ("attr-name", "sh-property"), ("attr-value", "sh-string"),
   ("color", "sh-keyword"), ("property", "sh-property"),
   ("selector", "sh-css-selector"), ("key", "sh-key"), ("boolean", "sh-keyword"),
   ("null", "sh-keyword"), ("meta", "sh-type"), ("variable", "sh-id"),
   ("at-rule", "sh-keyword"), ("unknown", "sh-unknown"),
   ("error", "bg-red-500/20 underline decoration-red-400 decoration-wavy"),
   ("whitespace", "sh-ws"), ("regex", "sh-regex"),
   ("html-entity", "sh-html-entity"), ("css-selector", "sh-css-selector"),
   ("css-property", "sh-css-property"), ("css-value", "sh-css-value"),
   ("jsx-tag", "sh-jsx-tag"), ("jsx-attribute", "sh-jsx-attribute"),
   ("template-string", "sh-template-string")]

/-- `String.prototype.substring(a, b)`: clamps both indices to the length and
swaps them when the start exceeds the end. -/
def jsSubstring (s : List Char) (a b : Nat) : List Char :=
  let a2 := min a s.length
  let b2 := min b s.length
  (s.take (max a2 b2)).drop (min a2 b2)

/-- `String.prototype.substring(a)`: from `a` (clamped) to the end. -/
def jsSubstringFrom (s : List Char) (a : Nat) : List Char :=
  s.drop a

/-- The body of the per-token `map` callback of `highlightBasic`
(src/utils/highlighter.ts lines 278-321): escape the token text, splice in
the search-match markers — slicing the ESCAPED text at raw offsets relative
to the token start — and wrap the result in the class span.  `tokenStart` is
the running `currentOffset`. -/
def renderToken (searchMatches : List (Nat × Nat)) (activeMatchIndex : Int)
    (tokenStart : Nat) (tok : Token) : List Char :=
  let isError := match tok.errorMessage with
    | none => false
    | some m => !m.data.isEmpty
  let safeTitle := match tok.errorMessage with
    | none => []
    | some m => replaceChar '"' ("&quot;".data) m.data
  let titleAttr :=
    if isError then ("title=\"".data) ++ safeTitle ++ ("\"".data) else []
  let className :=
    if isError then (lookupStr typeToClassMap "error").getD ""
    else
      match lookupStr typeToClassMap tok.type with
      | some cls => cls
      | none => (lookupStr typeToClassMap "unknown").getD ""
  let styledContent := escapeHtml tok.value
  let tokenEnd := tokenStart + tok.value.length
  let folded := (searchMatches.enum).foldl
    (fun (acc : List Char × Nat) im =>
      let overlapStart := max tokenStart im.2.1
      let overlapEnd := min tokenEnd im.2.2
      if overlapStart < overlapEnd then
        let beforeMatch := jsSubstring styledContent acc.2 (overlapStart - tokenStart)
        let inMatch :=
          jsSubstring styledContent (overlapStart - tokenStart) (overlapEnd - tokenStart)
        let matchClass :=
          if (im.1 : Int) = activeMatchIndex then "editor-active-match"
          else "editor-search-match"
        (acc.1 ++ beforeMatch ++ ("<span class=\"".data) ++ matchClass.data ++
           ("\">".data) ++ inMatch ++ ("</span>".data),
         overlapEnd - tokenStart)
      else acc)
    ([], 0)
  let styled2 :=
    if folded.1 ≠ [] then folded.1 ++ jsSubstringFrom styledContent folded.2
    else styledContent
  ("<span class=\"".data) ++ className.data ++ ("\" ".data) ++ titleAttr ++
    (">".data) ++ styled2 ++ ("</span>".data)

/-- `highlightBasic` (src/utils/highlighter.ts lines 267-324), with the rule
table of the language passed in place of the language id: the empty input
returns the empty string without tokenizing; otherwise each token is rendered
at the running raw offset and the pieces are joined. -/
def highlightBasic (rules : List Rule) (text : List Char)
    (searchMatches : List (Nat × Nat)) (activeMatchIndex : Int) : List Char :=
  if text.isEmpty then []
  else
    (((tokenize rules text).foldl
      (fun (acc : List Char × Nat) tok =>
        (acc.1 ++ renderToken searchMatches activeMatchIndex acc.2 tok,
         acc.2 + tok.value.length))
      ([], 0))).1

/-- `\w`, the ASCII word character class. -/
def isWordChar (c : Char) : Bool := c.isAlphanum || c = '_'

/-- The apostrophe character, written by code point. -/
def quoteChar : Char := Char.ofNat 39

/-- The backtick character, written by code point. -/
def backtickChar : Char := Char.ofNat 96

/-- A `\b` word boundary between the end of a word-character run and the rest
of the input. -/
def boundaryOK : List Char → Bool
  | [] => true
  | c :: _ => !isWordChar c

/-- The text up to and including the first `*/`, as matched by the lazy
`[\s\S]*?\*\/`; `none` when `*/` never occurs. -/
def upToStarSlash : List Char → Option (List Char)
  | [] => none
  | '*' :: '/' :: _ => some ['*', '/']
  | c :: cs => (upToStarSlash cs).map (fun m => c :: m)

/-- exec of the sql comment regex, an anchored alternation of a `--` line
comment and a lazy `/* ... */` block comment. -/
def execSqlComment : List Char → Option (List Char)
  | '-' :: '-' :: rest => some ('-' :: '-' :: rest.takeWhile (fun c => c ≠ '\n'))
  | '/' :: '*' :: rest => (upToStarSlash rest).map (fun m => '/' :: '*' :: m)
  | _ => none

/-- The part of an sql string literal after the opening quote: runs of
non-quote characters and doubled quotes, ended by a single closing quote;
`none` when the closing quote is missing. -/
def sqlStringBody : List Char → Option (List Char)
  | [] => none
  | c :: cs =>
    if c = quoteChar then
      match cs with
      | d :: ds =>
        if d = quoteChar then (sqlStringBody ds).map (fun m => c :: d :: m)
        else some [c]
      | [] => some [c]
    else (sqlStringBody cs).map (fun m => c :: m)

/-- exec of the anchored sql string regex (a quote, then non-quotes or
doubled quotes, then a closing quote). -/
def execSqlString : List Char → Option (List Char)
  | [] => none
  | c :: cs =>
    if c = quoteChar then (sqlStringBody cs).map (fun m => c :: m) else none

/-- exec of the sql number regex `^\b-?\d+(\.\d+)?\b`: the leading boundary
rules out a leading minus (the first character must be a word character), the
digit runs are maximal, and a failing word boundary after the fraction
backtracks to the integer part alone (whose boundary at the dot holds). -/
def execSqlNumber (s : List Char) : Option (List Char) :=
  let ds := s.takeWhile Char.isDigit
  if ds.isEmpty then none
  else
    let rest := s.drop ds.length
    match rest with
    | '.' :: r2 =>
      let fs := r2.takeWhile Char.isDigit
      if fs.isEmpty then some ds
      else if boundaryOK (r2.drop fs.length) then some (ds ++ '.' :: fs)
      else some ds
    | _ => if boundaryOK rest then some ds else none

/-- Case-insensitive match of one keyword alternative against a prefix of the
input; a space in the pattern stands for the `\s` class. -/
def matchKwPat : List Char → List Char → Option (List Char)
  | [], _ => some []
  | _ :: _, [] => none
  | p :: ps, c :: cs =>
    if p = ' ' then
      if c.isWhitespace then (matchKwPat ps cs).map (fun m => c :: m) else none
    else if p.toLower = c.toLower then (matchKwPat ps cs).map (fun m => c :: m)
    else none

/-- exec of an anchored case-insensitive keyword alternation
`^\b(K1|K2|...)\b`: alternatives are tried in order, and a failing trailing
word boundary backtracks into the later alternatives. -/
def execKwAlts : List (List Char) → List Char → Option (List Char)
  | [], _ => none
  | kw :: kws, s =>
    match matchKwPat kw s with
    | some m => if boundaryOK (s.drop m.length) then some m else execKwAlts kws s
    | none => execKwAlts kws s

/-- The sql keyword list in the alternation order of the source regex;
the two alternatives written with `\s` carry it as a space. -/
def sqlKeywords : List (List Char) :=
  ["SELECT", "FROM", "WHERE", "INSERT", "INTO", "VALUES", "UPDATE", "SET",
   "DELETE", "CREATE", "TABLE", "DATABASE", "ALTER", "DROP", "JOIN", "LEFT",
   "RIGHT", "INNER", "OUTER", "ON", "GROUP BY", "ORDER BY", "ASC", "DESC",
   "LIMIT", "OFFSET", "HAVING", "AS", "DISTINCT", "COUNT", "SUM", "AVG",
   "MAX", "MIN", "CASE", "WHEN", "THEN", "ELSE", "END", "AND", "OR", "NOT",
   "IN", "LIKE", "BETWEEN", "IS", "NULL", "PRIMARY", "KEY", "FOREIGN",
   "REFERENCES", "UNIQUE", "INDEX", "VIEW"].map String.data

/-- exec of the sql function regex `^\b[a-zA-Z_]\w*(?=\s*\()`: only the
maximal word run can satisfy the lookahead (a shorter stem is followed by a
word character), so the stem is the maximal run and the lookahead skips
whitespace to an opening parenthesis. -/
def execSqlFunction : List Char → Option (List Char)
  | [] => none
  | c :: cs =>
    if c.isAlpha || c = '_' then
      let stem := (c :: cs).takeWhile isWordChar
      match ((c :: cs).drop stem.length).dropWhile Char.isWhitespace with
      | '(' :: _ => some stem
      | _ => none
    else none

/-- The double-quoted alternative `"[^"]*"` applied at the current position
only. -/
def execDquoteAt : List Char → Option (List Char)
  | [] => none
  | c :: cs =>
    if c = '"' then
      let content := cs.takeWhile (fun d => d ≠ '"')
      match cs.drop content.length with
      | d :: _ => some (c :: (content ++ [d]))
      | [] => none
    else none

/-- The search phase of `exec` for the unanchored alternative `"[^"]*"`: the
engine retries at every later start position. -/
def searchDquote : List Char → Option (List Char)
  | [] => none
  | c :: cs =>
    match execDquoteAt (c :: cs) with
    | some m => some m
    | none => searchDquote cs

/-- exec of the sql quoted-identifier regex (src/utils/highlighter.ts line
149): an alternation of a backtick-quoted identifier and a double-quoted
identifier.  Only the backtick alternative carries the `^` anchor; the
double-quote alternative is unanchored, so `exec` finds it anywhere in the
input.  This is the source of the completeness bug exhibited below. -/
def execSqlIdQuoted : List Char → Option (List Char)
  | [] => none
  | c :: cs =>
    if c = backtickChar then
      let content := cs.takeWhile (fun d => d ≠ backtickChar)
      match cs.drop content.length with
      | d :: _ => some (c :: (content ++ [d]))
      | [] => searchDquote (c :: cs)
    else searchDquote (c :: cs)

/-- The sql operator character class `[,;*<>=!%|&^~.\-+/]`. -/
def isSqlOpChar (c : Char) : Bool :=
  c = ',' || c = ';' || c = '*' || c = '<' || c = '>' || c = '=' || c = '!' ||
  c = '%' || c = '|' || c = '&' || c = '^' || c = '~' || c = '.' || c = '-' ||
  c = '+' || c = '/'

/-- exec of the anchored greedy sql operator regex `^[,;*<>=!%|&^~.\-+/]+`. -/
def execSqlOp (s : List Char) : Option (List Char) :=
  let m := s.takeWhile isSqlOpChar
  if m.isEmpty then none else some m

/-- exec of the sql bracket regex `^[()]`. -/
def execSqlBracket : List Char → Option (List Char)
  | '(' :: _ => some ['(']
  | ')' :: _ => some [')']
  | _ => none

/-- exec of the sql identifier regex `^\b[a-zA-Z_]\w*\b`: the maximal word
run starting with a letter or underscore (the trailing boundary always holds
after a maximal run, and a shorter stem never has one). -/
def execSqlId : List Char → Option (List Char)
  | [] => none
  | c :: cs =>
    if c.isAlpha || c = '_' then some ((c :: cs).takeWhile isWordChar) else none

/-- exec of `^\s+`. -/
def execWhitespace (s : List Char) : Option (List Char) :=
  let m := s.takeWhile Char.isWhitespace
  if m.isEmpty then none else some m

/-- The sql rule table (src/utils/highlighter.ts lines 139-154), each regex
modelled by its exec function above, in the source order. -/
def sqlRules : List Rule :=
  [⟨"comment", execSqlComment, none⟩,
   ⟨"string", execSqlString, none⟩,
   ⟨"number", execSqlNumber, none⟩,
   ⟨"keyword", execKwAlts sqlKeywords, none⟩,
   ⟨"boolean", execKwAlts (["TRUE", "FALSE"].map String.data), none⟩,
   ⟨"function", execSqlFunction, none⟩,
   ⟨"id", execSqlIdQuoted, none⟩,
   ⟨"op", execSqlOp, none⟩,
   ⟨"bracket", execSqlBracket, none⟩,
   ⟨"id", execSqlId, none⟩,
   ⟨"whitespace", execWhitespace, none⟩]

/-- The plaintext fallback table (src/utils/highlighter.ts lines 202-204):
one rule of type `text` whose anchored greedy regex matches the whole
remaining input when it is non-empty. -/
def plaintextRules : List Rule :=
  [⟨"text", fun s => match s with | [] => none | _ => some s, none⟩]

end HL

namespace FS

theorem childGet_childSet_self (cs : Children) (k : String) (v : FSNode) :
    childGet (childSet cs k v) k = some v := by
  induction cs with
  | nil => simp [childSet, childGet]
  | cons hd tl ih =>
    obtain ⟨k', w⟩ := hd
    by_cases h : k' = k
    · subst h; simp [childSet, childGet]
    · simp [childSet, childGet, h, ih]

theorem getNode_setAux (value : FSNode) :
    ∀ (parts : List String) (cs cs2 : Children), parts ≠ [] →
      setAux value cs parts = .ok cs2 →
      getNode (.folder cs2) parts = some value := by
  intro parts
  induction parts with
  | nil => intro cs cs2 h _; exact absurd rfl h
  | cons seg rest ih =>
    intro cs cs2 _ hset
    cases rest with
    | nil =>
      cases hget : childGet cs seg with
      | none =>
        simp only [setAux, hget, Except.ok.injEq] at hset
        subst hset
        simp [getNode, childGet_childSet_self]
      | some existing =>
        simp only [setAux, hget] at hset
        split at hset
        · exact absurd hset (by simp)
        · simp only [Except.ok.injEq] at hset
          subst hset
          simp [getNode, childGet_childSet_self]
    | cons r rest' =>
      cases hget : childGet cs seg with
      | none =>
        simp only [setAux, hget] at hset
        cases hrec : setAux value [] (r :: rest') with
        | error e => rw [hrec] at hset; exact absurd hset (by simp)
        | ok ccs2 =>
          rw [hrec] at hset
          simp only [Except.ok.injEq] at hset
          subst hset
          simp only [getNode, childGet_childSet_self]
          exact ih [] ccs2 (by simp) hrec
      | some existing =>
        cases existing with
        | file c =>
          simp only [setAux, hget] at hset
          exact absurd hset (by simp)
        | folder ccs =>
          simp only [setAux, hget] at hset
          cases hrec : setAux value ccs (r :: rest') with
          | error e => rw [hrec] at hset; exact absurd hset (by simp)
          | ok ccs2 =>
            rw [hrec] at hset
            simp only [Except.ok.injEq] at hset
            subst hset
            simp only [getNode, childGet_childSet_self]
            exact ih ccs ccs2 (by simp) hrec

/-- C1: Round-trip: for every tree, value and path on which `set` succeeds,
`get` after `set` returns exactly the value that was set; this includes the
empty-segment path, where a folder value replaces the root and `get` of the
empty path returns the root. -/
theorem roundTrip_get_set (root : Children) (path : String) (value : FSNode)
    (root2 : Children) (h : set root path value = .ok root2) :
    get root2 path = some value := by
  unfold set at h
  cases hsp : splitPath path with
  | nil =>
    rw [hsp] at h
    cases value with
    | folder ccs =>
      simp only [Except.ok.injEq] at h
      subst h
      simp [get, hsp, getNode]
    | file c => exact absurd h (by simp)
  | cons seg rest =>
    rw [hsp] at h
    have := getNode_setAux value (seg :: rest) root root2 (by simp) h
    simpa [get, hsp] using this

/-- Witness for C1: setting the file `hello` at `/a/b.txt` in the empty root
succeeds, and `get` of that path on the result returns that file. -/
theorem roundTrip_get_set_witness :
    get [("a", FSNode.folder [("b.txt", FSNode.file "hello")])] "/a/b.txt" =
      some (FSNode.file "hello") :=
  roundTrip_get_set [] "/a/b.txt" (FSNode.file "hello")
    [("a", FSNode.folder [("b.txt", FSNode.file "hello")])] rfl

/-- C3: Auto-prune full cascade: on a tree whose only content is one file at
`/a/b/c.txt`, unsetting that file removes the emptied folders `b` and `a` as
well, leaving an empty root with no `a` key at all. -/
theorem unset_autoPrune_cascade (s : String) :
    unset [("a", FSNode.folder [("b", FSNode.folder [("c.txt", FSNode.file s)])])]
      "/a/b/c.txt" = .ok [] := rfl

theorem setAux_final_conflict (value : FSNode) :
    ∀ (ps : List String) (cs pcs : Children) (seg : String) (ex : FSNode),
      getNode (.folder cs) ps = some (.folder pcs) →
      childGet pcs seg = some ex →
      (nodeType ex ≠ nodeType value →
        setAux value cs (ps ++ [seg]) =
          .error "TypeConflict: cannot overwrite an existing node with a node of a different type") ∧
      (nodeType ex = nodeType value → ∃ cs2, setAux value cs (ps ++ [seg]) = .ok cs2) := by
  intro ps
  induction ps with
  | nil =>
    intro cs pcs seg ex hwalk hex
    simp only [getNode, Option.some.injEq, FSNode.folder.injEq] at hwalk
    subst hwalk
    constructor
    · intro hne
      simp [setAux, hex, hne]
    · intro heq
      refine ⟨childSet cs seg value, ?_⟩
      simp [setAux, hex, heq]
  | cons q qs ih =>
    intro cs pcs seg ex hwalk hex
    simp only [getNode] at hwalk
    cases hq : childGet cs q with
    | none => rw [hq] at hwalk; exact absurd hwalk (by simp)
    | some child =>
      rw [hq] at hwalk
      cases child with
      | file c =>
        cases qs with
        | nil => exact absurd hwalk (by simp [getNode])
        | cons q2 qs2 => exact absurd hwalk (by simp [getNode])
      | folder ccs =>
        have ihspec := ih ccs pcs seg ex hwalk hex
        cases htail : qs ++ [seg] with
        | nil => exact absurd htail (by simp)
        | cons r rest' =>
          have hlist : (q :: qs) ++ [seg] = q :: r :: rest' := by
            simp [htail]
          rw [hlist]
          rw [htail] at ihspec
          constructor
          · intro hne
            have := ihspec.1 hne
            simp [setAux, hq, this]
          · intro heq
            obtain ⟨ccs2, hok⟩ := ihspec.2 heq
            exact ⟨childSet cs q (.folder ccs2), by simp [setAux, hq, hok]⟩

/-- C5: Type-conflict guard: on a non-empty path whose intermediate segments
all resolve to folders, if the final segment already holds a node of a
different kind than the value then `set` raises an error rather than
overwriting; a same-kind overwrite succeeds and replaces the node. -/
theorem set_typeConflict_guard (root : Children) (path : String) (value ex : FSNode)
    (ps : List String) (seg : String) (pcs : Children)
    (hsp : splitPath path = ps ++ [seg])
    (hwalk : getNode (.folder root) ps = some (.folder pcs))
    (hex : childGet pcs seg = some ex) :
    (nodeType ex ≠ nodeType value → ∃ e, set root path value = .error e) ∧
    (nodeType ex = nodeType value →
      ∃ root2, set root path value = .ok root2 ∧ get root2 path = some value) := by
  have hset : set root path value = setAux value root (ps ++ [seg]) := by
    unfold set
    rw [hsp]
    cases ps <;> simp
  have hmain := setAux_final_conflict value ps root pcs seg ex hwalk hex
  constructor
  · intro hne
    exact ⟨_, by rw [hset]; exact hmain.1 hne⟩
  · intro heq
    obtain ⟨root2, hok⟩ := hmain.2 heq
    refine ⟨root2, by rw [hset]; exact hok, ?_⟩
    have := getNode_setAux value (ps ++ [seg]) root root2 (by simp) hok
    simpa [get, hsp] using this

/-- Witness for C5: overwriting the file at `/a/f` with a folder raises the
type conflict, while overwriting it with another file succeeds and the new
content is read back. -/
theorem set_typeConflict_guard_witness :
    (∃ e, set [("a", FSNode.folder [("f", FSNode.file "x")])] "/a/f"
            (FSNode.folder []) = .error e) ∧
    (∃ root2, set [("a", FSNode.folder [("f", FSNode.file "x")])] "/a/f"
            (FSNode.file "y") = .ok root2 ∧ get root2 "/a/f" = some (FSNode.file "y")) := by
  constructor
  · exact (set_typeConflict_guard [("a", FSNode.folder [("f", FSNode.file "x")])] "/a/f"
      (FSNode.folder []) (FSNode.file "x") ["a"] "f" [("f", FSNode.file "x")]
      (by decide) rfl rfl).1 (by decide)
  · exact (set_typeConflict_guard [("a", FSNode.folder [("f", FSNode.file "x")])] "/a/f"
      (FSNode.file "y") (FSNode.file "x") ["a"] "f" [("f", FSNode.file "x")]
      (by decide) rfl rfl).2 (by decide)

theorem mem_childDel {cs : Children} {key : String} {p : String × FSNode}
    (h : p ∈ childDel cs key) : p ∈ cs := by
  induction cs with
  | nil => rw [childDel] at h; exact h
  | cons hd tl ih =>
    obtain ⟨k, w⟩ := hd
    by_cases hk : k = key
    · subst hk
      simp only [childDel, if_true, eq_self_iff_true] at h
      exact List.mem_cons_of_mem _ h
    · simp only [childDel, if_neg hk, List.mem_cons] at h
      rcases h with h | h
      · simp [h]
      · exact List.mem_cons_of_mem _ (ih h)

theorem mem_childSet {cs : Children} {key : String} {v : FSNode} {p : String × FSNode}
    (h : p ∈ childSet cs key v) : p ∈ cs ∨ p = (key, v) := by
  induction cs with
  | nil =>
    simp only [childSet, List.mem_singleton] at h
    exact Or.inr h
  | cons hd tl ih =>
    obtain ⟨k, w⟩ := hd
    by_cases hk : k = key
    · subst hk
      simp only [childSet, if_true, eq_self_iff_true, List.mem_cons] at h
      rcases h with h | h
      · exact Or.inr h
      · exact Or.inl (List.mem_cons_of_mem _ h)
    · simp only [childSet, if_neg hk, List.mem_cons] at h
      rcases h with h | h
      · exact Or.inl (by simp [h])
      · rcases ih h with h2 | h2
        · exact Or.inl (List.mem_cons_of_mem _ h2)
        · exact Or.inr h2

theorem childGet_mem {cs : Children} {key : String} {n : FSNode}
    (h : childGet cs key = some n) : (key, n) ∈ cs := by
  induction cs with
  | nil => simp [childGet] at h
  | cons hd tl ih =>
    obtain ⟨k, w⟩ := hd
    by_cases hk : k = key
    · subst hk
      simp only [childGet, if_true, eq_self_iff_true, Option.some.injEq] at h
      simp [h]
    · simp only [childGet, if_neg hk] at h
      exact List.mem_cons_of_mem _ (ih h)

theorem childGet_ne_nil {cs : Children} {key : String} {n : FSNode}
    (h : childGet cs key = some n) : cs ≠ [] := by
  intro hnil
  subst hnil
  simp [childGet] at h

theorem childSet_of_childGet {cs : Children} {key : String} {n : FSNode}
    (h : childGet cs key = some n) : childSet cs key n = cs := by
  induction cs with
  | nil => simp [childGet] at h
  | cons hd tl ih =>
    obtain ⟨k, w⟩ := hd
    by_cases hk : k = key
    · subst hk
      simp only [childGet, if_true, eq_self_iff_true, Option.some.injEq] at h
      simp [childSet, h]
    · simp only [childGet, if_neg hk] at h
      simp [childSet, hk, ih h]

theorem unsetAux_nil (cs : Children) (depth : Nat) :
    unsetAux cs [] depth = .ok (some cs) := rfl

theorem unsetAux_cons_none {cs : Children} {seg : String} {rest : List String} {depth : Nat}
    (hget : childGet cs seg = none) :
    unsetAux cs (seg :: rest) depth = .ok (some cs) := by
  rw [unsetAux, hget]

theorem unsetAux_cons_final {cs : Children} {seg : String} {depth : Nat} {ex : FSNode}
    (hget : childGet cs seg = some ex) :
    unsetAux cs [seg] depth =
      (if (childDel cs seg).isEmpty && depth != 0 then .ok none
       else .ok (some (childDel cs seg))) := by
  rw [unsetAux, hget]

theorem unsetAux_cons_file {cs : Children} {seg r2 : String} {rest' : List String}
    {depth : Nat} {c : String}
    (hget : childGet cs seg = some (.file c)) :
    unsetAux cs (seg :: r2 :: rest') depth =
      .error "PathConflict: cannot unset a child within a file" := by
  rw [unsetAux, hget]

theorem unsetAux_cons_folder {cs : Children} {seg r2 : String} {rest' : List String}
    {depth : Nat} {ccs : Children}
    (hget : childGet cs seg = some (.folder ccs)) :
    unsetAux cs (seg :: r2 :: rest') depth =
      (match unsetAux ccs (r2 :: rest') (depth + 1) with
       | .error e => .error e
       | .ok rr =>
         let cs2 :=
           match rr with
           | none => childDel cs seg
           | some ccs2 =>
             if ccs2.isEmpty then childDel cs seg
             else childSet cs seg (.folder ccs2)
         if cs2.isEmpty && depth != 0 then .ok none else .ok (some cs2)) := by
  rw [unsetAux, hget]

theorem if_isEmpty_false {α : Type} {cs : Children} (h : cs.isEmpty = false) (a b : α) :
    (if cs.isEmpty then a else b) = b := by
  simp [h]

theorem unsetAux_if_ok {cs2' : Children} {depth : Nat} {r : Option Children}
    (h : (if cs2'.isEmpty && depth != 0 then
            (Except.ok none : Except String (Option Children))
          else .ok (some cs2')) = .ok r) :
    ∀ cs2, r = some cs2 → cs2 = cs2' ∧ (0 < depth → cs2' ≠ []) := by
  intro cs2 hr
  split at h
  · injection h with h
    subst h
    exact Option.noConfusion hr
  · rename_i hcond
    injection h with h
    subst h
    injection hr with hr
    subst hr
    refine ⟨rfl, fun hd0 hnil => hcond ?_⟩
    subst hnil
    simp only [List.isEmpty_nil, Bool.true_and, bne_iff_ne, ne_eq]
    omega

theorem unsetAux_preserves_noEmpty :
    ∀ (parts : List String) (cs : Children) (depth : Nat) (r : Option Children),
      (∀ p ∈ cs, NoEmpty p.2) →
      (0 < depth → cs ≠ []) →
      unsetAux cs parts depth = .ok r →
      ∀ cs2, r = some cs2 → ((∀ p ∈ cs2, NoEmpty p.2) ∧ (0 < depth → cs2 ≠ [])) := by
  intro parts
  induction parts with
  | nil =>
    intro cs depth r hinv hdep h cs2 hr
    rw [unsetAux_nil] at h
    injection h with h
    subst h
    injection hr with hr
    subst hr
    exact ⟨hinv, hdep⟩
  | cons seg rest ih =>
    intro cs depth r hinv hdep h cs2 hr
    cases hget : childGet cs seg with
    | none =>
      rw [unsetAux_cons_none hget] at h
      injection h with h
      subst h
      injection hr with hr
      subst hr
      exact ⟨hinv, hdep⟩
    | some existing =>
      cases rest with
      | nil =>
        rw [unsetAux_cons_final hget] at h
        obtain ⟨hcs2, hne2⟩ := unsetAux_if_ok h cs2 hr
        subst hcs2
        exact ⟨fun p hp => hinv p (mem_childDel hp), hne2⟩
      | cons r2 rest' =>
        cases existing with
        | file c =>
          rw [unsetAux_cons_file hget] at h
          exact Except.noConfusion h
        | folder ccs =>
          have hno := hinv _ (childGet_mem hget)
          cases hno with
          | folder _ hne hall =>
            rw [unsetAux_cons_folder hget] at h
            cases hrec : unsetAux ccs (r2 :: rest') (depth + 1) with
            | error e =>
              rw [hrec] at h
              exact Except.noConfusion h
            | ok rr =>
              rw [hrec] at h
              have hsub := ih ccs (depth + 1) rr hall (fun _ => hne) hrec
              cases rr with
              | none =>
                dsimp only at h
                obtain ⟨hcs2, hne2⟩ := unsetAux_if_ok h cs2 hr
                subst hcs2
                exact ⟨fun p hp => hinv p (mem_childDel hp), hne2⟩
              | some ccs2 =>
                have hccs2 := hsub ccs2 rfl
                have hccs2ne : ccs2 ≠ [] := hccs2.2 (by omega)
                have hccs2e : ccs2.isEmpty = false := by
                  simpa [List.isEmpty_iff] using hccs2ne
                dsimp only at h
                rw [if_isEmpty_false hccs2e] at h
                obtain ⟨hcs2, hne2⟩ := unsetAux_if_ok h cs2 hr
                subst hcs2
                refine ⟨fun p hp => ?_, hne2⟩
                rcases mem_childSet hp with h2 | h2
                · exact hinv p h2
                · subst h2
                  exact NoEmpty.folder ccs2 hccs2ne hccs2.1

theorem unset_preserves_noEmpty (root : Children) (path : String) (root2 : Children)
    (hinv : RootNoEmpty root) (h : unset root path = .ok root2) : RootNoEmpty root2 := by
  unfold unset at h
  cases hsp : splitPath path with
  | nil =>
    rw [hsp] at h
    simp only [Except.ok.injEq] at h
    subst h
    intro p hp
    simp at hp
  | cons seg rest =>
    rw [hsp] at h
    dsimp only at h
    cases hr : unsetAux root (seg :: rest) 0 with
    | error e => rw [hr] at h; exact absurd h (by simp)
    | ok rr =>
      rw [hr] at h
      cases rr with
      | none =>
        simp only [Except.ok.injEq] at h
        subst h
        intro p hp
        simp at hp
      | some cs2 =>
        simp only [Except.ok.injEq] at h
        subst h
        exact (unsetAux_preserves_noEmpty (seg :: rest) root 0 (some cs2) hinv
          (by omega) hr cs2 rfl).1

/-- C4: No dangling empty folders: starting from a tree in which every
non-root folder has at least one child, any sequence of `unset` calls that
raises no error again yields a tree with no empty non-root folder (only the
root may end up empty). -/
theorem unsetSeq_noEmptyFolders (root : Children) (paths : List String) (root2 : Children)
    (hinv : RootNoEmpty root) (h : unsetSeq root paths = .ok root2) :
    RootNoEmpty root2 := by
  induction paths generalizing root with
  | nil =>
    simp only [unsetSeq, Except.ok.injEq] at h
    subst h
    exact hinv
  | cons p ps ih =>
    simp only [unsetSeq] at h
    cases hu : unset root p with
    | error e => rw [hu] at h; exact absurd h (by simp)
    | ok root1 =>
      rw [hu] at h
      exact ih root1 (unset_preserves_noEmpty root p root1 hinv hu) h

/-- Witness for C4: deleting `/a/b` from a root holding folder `a` with files
`b` and `c` leaves folder `a` holding `c`, and the invariant still holds. -/
theorem unsetSeq_noEmptyFolders_witness :
    RootNoEmpty [("a", FSNode.folder [("c", FSNode.file "y")])] :=
  unsetSeq_noEmptyFolders
    [("a", FSNode.folder [("b", FSNode.file "x"), ("c", FSNode.file "y")])] ["/a/b"]
    [("a", FSNode.folder [("c", FSNode.file "y")])]
    (by
      intro p hp
      rcases List.mem_singleton.mp hp with rfl
      refine NoEmpty.folder _ (by simp) ?_
      intro q hq
      simp only [List.mem_cons, List.not_mem_nil, or_false] at hq
      rcases hq with rfl | rfl
      · exact NoEmpty.file "x"
      · exact NoEmpty.file "y")
    rfl

theorem missingBenign_file {cs : Children} {seg : String} {rest : List String} {c : String}
    (hget : childGet cs seg = some (.file c)) :
    missingBenign cs (seg :: rest) = false := by
  rw [missingBenign, hget]

theorem missingBenign_folder_nil {cs : Children} {seg : String} {ccs : Children}
    (hget : childGet cs seg = some (.folder ccs)) :
    missingBenign cs [seg] = false := by
  rw [missingBenign, hget]

theorem missingBenign_folder_cons {cs : Children} {seg r2 : String} {rest' : List String}
    {ccs : Children} (hget : childGet cs seg = some (.folder ccs)) :
    missingBenign cs (seg :: r2 :: rest') = missingBenign ccs (r2 :: rest') := by
  rw [missingBenign, hget]

theorem unsetAux_missingBenign :
    ∀ (parts : List String) (cs : Children) (depth : Nat),
      (∀ p ∈ cs, NoEmpty p.2) →
      missingBenign cs parts = true →
      unsetAux cs parts depth = .ok (some cs) := by
  intro parts
  induction parts with
  | nil => intro cs depth _ hmb; simp [missingBenign] at hmb
  | cons seg rest ih =>
    intro cs depth hinv hmb
    cases hget : childGet cs seg with
    | none => exact unsetAux_cons_none hget
    | some existing =>
      cases existing with
      | file c =>
        rw [missingBenign_file hget] at hmb
        exact Bool.noConfusion hmb
      | folder ccs =>
        cases rest with
        | nil =>
          rw [missingBenign_folder_nil hget] at hmb
          exact Bool.noConfusion hmb
        | cons r2 rest' =>
          rw [missingBenign_folder_cons hget] at hmb
          have hno := hinv _ (childGet_mem hget)
          cases hno with
          | folder _ hne hall =>
            have hrec := ih ccs (depth + 1) hall hmb
            have hccse : ccs.isEmpty = false := by simpa [List.isEmpty_iff] using hne
            have hcse : cs.isEmpty = false := by
              simpa [List.isEmpty_iff] using childGet_ne_nil hget
            rw [unsetAux_cons_folder hget, hrec]
            dsimp only
            rw [if_isEmpty_false hccse, childSet_of_childGet hget, hcse]
            simp

/-- Counterexample to C7 as stated: in the tree whose root holds the empty
folder `a`, the path `/a/b` has a missing segment `b` and no earlier
intermediate file segment, yet `unset` does not return the tree unchanged —
it deletes the empty folder `a` and returns an empty root. -/
theorem unset_missing_not_noop_cex :
    missingBenign [("a", FSNode.folder [])] ["a", "b"] = true ∧
    splitPath "/a/b" = ["a", "b"] ∧
    unset [("a", FSNode.folder [])] "/a/b" = .ok [] ∧
    ([] : Children) ≠ [("a", FSNode.folder [])] := by
  refine ⟨rfl, by decide, rfl, ?_⟩
  intro h
  exact List.noConfusion h

/-- C7 amended: missing-path `unset` is a no-op on every tree satisfying the
data-model invariant (no empty non-root folders): if some segment of the path
is missing at its level and no earlier intermediate segment resolves to a
file, then `unset` returns the tree unchanged and raises no error. -/
theorem unset_missing_noop (root : Children) (path : String)
    (hinv : RootNoEmpty root)
    (hmb : missingBenign root (splitPath path) = true) :
    unset root path = .ok root := by
  cases hsp : splitPath path with
  | nil => rw [hsp] at hmb; simp [missingBenign] at hmb
  | cons seg rest =>
    rw [hsp] at hmb
    have hmain := unsetAux_missingBenign (seg :: rest) root 0 hinv hmb
    unfold unset
    rw [hsp]
    dsimp only
    rw [hmain]

/-- Witness for C7 amended: unsetting the absent `/b` in a root holding only
the file `a` returns the tree unchanged. -/
theorem unset_missing_noop_witness :
    unset [("a", FSNode.file "x")] "/b" = .ok [("a", FSNode.file "x")] :=
  unset_missing_noop [("a", FSNode.file "x")] "/b"
    (fun p hp => by rcases List.mem_singleton.mp hp with rfl; exact NoEmpty.file "x")
    (by decide)

end FS

namespace HL

theorem tokenizeFuel_nil (rules : List Rule) (fuel : Nat) :
    tokenizeFuel rules fuel [] = some [] := by
  cases fuel <;> rfl

theorem tokenizeFuel_succ (rules : List Rule) (fuel : Nat) (c : Char) (cs : List Char) :
    tokenizeFuel rules (fuel + 1) (c :: cs) =
      (match findRule rules (c :: cs) with
       | some (r, d, ds) =>
         (tokenizeFuel rules fuel (List.drop ds.length cs)).map
           (fun toks => ⟨r.type, d :: ds, r.errorMessage⟩ :: toks)
       | none =>
         (tokenizeFuel rules fuel cs).map
           (fun toks => ⟨"unknown", [c], some unknownMessage⟩ :: toks)) := rfl

theorem tokenizeFuel_fuelIrrel (rules : List Rule) :
    ∀ (fuel fuel2 : Nat) (s : List Char), s.length ≤ fuel → s.length ≤ fuel2 →
      tokenizeFuel rules fuel s = tokenizeFuel rules fuel2 s := by
  intro fuel
  induction fuel with
  | zero =>
    intro fuel2 s h1 _
    have hs : s = [] := List.eq_nil_of_length_eq_zero (Nat.le_zero.mp h1)
    subst hs
    rw [tokenizeFuel_nil, tokenizeFuel_nil]
  | succ f ih =>
    intro fuel2 s h1 h2
    cases s with
    | nil => rw [tokenizeFuel_nil, tokenizeFuel_nil]
    | cons c cs =>
      cases fuel2 with
      | zero => simp at h2
      | succ f2 =>
        rw [tokenizeFuel_succ, tokenizeFuel_succ]
        have hcs1 : cs.length ≤ f := by simpa using h1
        have hcs2 : cs.length ≤ f2 := by simpa using h2
        cases hf : findRule rules (c :: cs) with
        | none =>
          dsimp only
          rw [ih f2 cs hcs1 hcs2]
        | some rds =>
          obtain ⟨r, d, ds⟩ := rds
          have hd1 : (List.drop ds.length cs).length ≤ f := by
            rw [List.length_drop]; omega
          have hd2 : (List.drop ds.length cs).length ≤ f2 := by
            rw [List.length_drop]; omega
          dsimp only
          rw [ih f2 _ hd1 hd2]

theorem tokenizeFuel_isSome (rules : List Rule) :
    ∀ (fuel : Nat) (s : List Char), s.length ≤ fuel →
      ∃ toks, tokenizeFuel rules fuel s = some toks := by
  intro fuel
  induction fuel with
  | zero =>
    intro s h
    have hs : s = [] := List.eq_nil_of_length_eq_zero (Nat.le_zero.mp h)
    subst hs
    exact ⟨[], rfl⟩
  | succ f ih =>
    intro s h
    cases s with
    | nil => exact ⟨[], tokenizeFuel_nil rules (f + 1)⟩
    | cons c cs =>
      rw [tokenizeFuel_succ]
      have hcs : cs.length ≤ f := by simpa using h
      cases hf : findRule rules (c :: cs) with
      | none =>
        obtain ⟨toks, htoks⟩ := ih cs hcs
        refine ⟨⟨"unknown", [c], some unknownMessage⟩ :: toks, ?_⟩
        dsimp only
        rw [htoks]
        rfl
      | some rds =>
        obtain ⟨r, d, ds⟩ := rds
        have hd : (List.drop ds.length cs).length ≤ f := by
          rw [List.length_drop]; omega
        obtain ⟨toks, htoks⟩ := ih _ hd
        refine ⟨⟨r.type, d :: ds, r.errorMessage⟩ :: toks, ?_⟩
        dsimp only
        rw [htoks]
        rfl

/-- C8: Tokenizer termination: the scan loop of `tokenize` finishes within
one iteration per input character, for every rule table and every input — an
accepted rule match is non-empty and advances the position by its length, and
the fallback advances by exactly one — so every budget of at least the input
length yields the same, defined result. -/
theorem tokenize_terminates (rules : List Rule) (s : List Char) (fuel : Nat)
    (h : s.length ≤ fuel) :
    tokenizeFuel rules fuel s = some (tokenize rules s) := by
  obtain ⟨toks, htoks⟩ := tokenizeFuel_isSome rules s.length s le_rfl
  rw [tokenizeFuel_fuelIrrel rules fuel s.length s h le_rfl]
  unfold tokenize
  rw [htoks]
  rfl

/-- Witness for C8: a budget of 5 suffices for the three-character sql input
`ab;`. -/
theorem tokenize_terminates_witness :
    ("ab;".data).length ≤ 5 ∧
    tokenizeFuel sqlRules 5 ("ab;".data) = some (tokenize sqlRules ("ab;".data)) :=
  ⟨by decide, tokenize_terminates sqlRules ("ab;".data) 5 (by decide)⟩

theorem tokenizeFuel_no_empty_token (rules : List Rule) :
    ∀ (fuel : Nat) (s : List Char) (toks : List Token),
      tokenizeFuel rules fuel s = some toks →
      ∀ t ∈ toks, 0 < t.value.length := by
  intro fuel
  induction fuel with
  | zero =>
    intro s toks h t ht
    cases s with
    | nil =>
      rw [tokenizeFuel_nil] at h
      injection h with h
      subst h
      simp at ht
    | cons c cs => exact absurd h (by exact Option.noConfusion)
  | succ f ih =>
    intro s toks h t ht
    cases s with
    | nil =>
      rw [tokenizeFuel_nil] at h
      injection h with h
      subst h
      simp at ht
    | cons c cs =>
      rw [tokenizeFuel_succ] at h
      cases hf : findRule rules (c :: cs) with
      | none =>
        rw [hf] at h
        dsimp only at h
        cases hrec : tokenizeFuel rules f cs with
        | none => rw [hrec] at h; exact absurd h (by simp)
        | some toks2 =>
          rw [hrec] at h
          injection h with h
          subst h
          rcases List.mem_cons.mp ht with rfl | ht2
          · simp
          · exact ih cs toks2 hrec t ht2
      | some rds =>
        obtain ⟨r, d, ds⟩ := rds
        rw [hf] at h
        dsimp only at h
        cases hrec : tokenizeFuel rules f (List.drop ds.length cs) with
        | none => rw [hrec] at h; exact absurd h (by simp)
        | some toks2 =>
          rw [hrec] at h
          injection h with h
          subst h
          rcases List.mem_cons.mp ht with rfl | ht2
          · simp
          · exact ih _ toks2 hrec t ht2

/-- C10: No empty tokens: for every rule table and input, every token in the
stream produced by `tokenize` has a value of strictly positive length — a
rule match is accepted only when non-empty, and the fallback token carries
exactly one character. -/
theorem tokenize_no_empty_token (rules : List Rule) (s : List Char) (t : Token)
    (ht : t ∈ tokenize rules s) : 0 < t.value.length := by
  obtain ⟨toks, htoks⟩ := tokenizeFuel_isSome rules s.length s le_rfl
  have heq : tokenize rules s = toks := by
    unfold tokenize
    rw [htoks]
    rfl
  rw [heq] at ht
  exact tokenizeFuel_no_empty_token rules s.length s toks htoks t ht

/-- Witness for C10: the single token of the plaintext input `hi` has
positive length. -/
theorem tokenize_no_empty_token_witness :
    0 < (Token.mk "text" ("hi".data) none).value.length :=
  tokenize_no_empty_token plaintextRules ("hi".data)
    (Token.mk "text" ("hi".data) none) (by decide)

theorem replaceChar_append (c : Char) (rep : List Char) (a b : List Char) :
    replaceChar c rep (a ++ b) = replaceChar c rep a ++ replaceChar c rep b := by
  induction a with
  | nil => rfl
  | cons d ds ih =>
    by_cases h : d = c
    · simp [replaceChar, h, ih]
    · simp [replaceChar, h, ih]

/-- C9: `escapeHtml` is a concatenation homomorphism: escaping the
concatenation of two strings equals the concatenation of their escapings;
this is what makes escaping whole token text equivalent to escaping each
sub-slice separately. -/
theorem escapeHtml_append (a b : List Char) :
    escapeHtml (a ++ b) = escapeHtml a ++ escapeHtml b := by
  unfold escapeHtml
  rw [replaceChar_append, replaceChar_append, replaceChar_append]

/-- Evidence against C2 (tokenizer completeness), evaluated at the failing
input: on the input `a"b"` with the sql rules, the double-quote alternative
of the quoted-identifier regex — which lacks the `^` anchor — matches `"b"`
in the MIDDLE of the input; the skipped `a` never reaches any token, and the
concatenated token values do not reproduce the input. -/
theorem tokenize_not_complete_sql :
    tokenize sqlRules ("a\"b\"".data) =
      [⟨"id", ("\"b\"").data, none⟩, ⟨"unknown", ['"'], some unknownMessage⟩] ∧
    concatValues (tokenize sqlRules ("a\"b\"".data)) ≠ ("a\"b\"".data) := by
  constructor
  · decide
  · decide

/-- Evidence against C6 (overlay escaping consistency), evaluated at the
failing input: on the token `a&b` with a search match at raw offsets 2..3,
`highlightBasic` slices the ESCAPED text `a&amp;b` at the raw offsets, so the
emitted in-match segment is `a` — the middle of the `&amp;` entity — while
the escaping of the raw sub-slice demanded by the claim is `b`. -/
theorem highlightBasic_splits_entity :
    highlightBasic plaintextRules ("a&b".data) [(2, 3)] (-1) =
      ("<span class=\"sh-unknown\" >a&<span class=\"editor-search-match\">a</span>mp;b</span>").data ∧
    escapeHtml (jsSubstring ("a&b".data) 2 3) = ("b").data := by
  constructor
  · decide
  · decide

end HL

